import Mathlib

/-!
Verification development for the emergency-department discrete-event
simulation (`src/main.py`).

The Python program drives its simulation through the `simpy` library, whose
engine (virtual-time event scheduler, FIFO resource pools, cooperative
processes) is not part of this repository's sources.  Following the design
document, the engine below is modelled from the spec: a single-threaded
scheduler owning a monotone clock and a lexicographically sorted event queue,
and capacity-bounded pools with FIFO wait lists and zero-duration handoff on
release.  Everything layered on top of the engine — the activity-duration
table, the patient state machine, the arrival generator, the monitor and the
orchestrator — is translated directly from `src/main.py`.

Virtual time and random samples are rationals; randomness is supplied as
explicit sample streams (one per Python RNG module), consumed in program
order, which models the seeded, reproducible generators of the source.
-/

namespace EDSim

/-- The five resource categories created by `Hospital.__init__`. -/
inductive PoolId where
  | fastDoctor
  | fastNurse
  | edDoctor
  | edNurse
  | beds
deriving DecidableEq, Repr

instance : Fintype PoolId :=
  Fintype.ofList [.fastDoctor, .fastNurse, .edDoctor, .edNurse, .beds]
    (fun x => by cases x <;> simp)

/-- The two random sources of the program: `random.random()` (uniform draws
for branch decisions) and the `np.random` distribution samplers. -/
inductive RSrc where
  | uniformR
  | normalNp (mean std : ℚ)
  | expNp (mean : ℚ)

/-- Cooperative process bodies.  `rand` consumes the next sample of the
corresponding stream; `record` appends `now - arrival` to the shared
wait-time list (the last line of `patient`); `snapshot` is the monitor's
sampling action. -/
inductive Proc where
  | done : Proc
  | delay (d : ℚ) (k : Proc)
  | acquire (r : PoolId) (k : Proc)
  | release (r : PoolId) (k : Proc)
  | spawn (child : Proc) (k : Proc)
  | record (k : Proc)
  | snapshot (k : Proc)
  | rand (src : RSrc) (k : ℚ → Proc)

/-- Modelled from the spec: a ResourcePool has a fixed capacity, a live
occupancy count and a FIFO wait list of parked requesters (pid with the
continuation to resume on admission). -/
structure Pool where
  capacity : ℕ
  occupancy : ℕ
  waiting : List (ℕ × Proc)

/-- Modelled from the spec: an Event is a (timestamp, sequence-tiebreak,
resumption-target) triple; the resumption target is the process id together
with its parked continuation. -/
structure Event where
  time : ℚ
  seq : ℕ
  pid : ℕ
  cont : Proc

/-- One monitor sample: current time, the two aggregate queue lengths, and
the five pool utilizations, exactly the fields appended by `monitor`. -/
structure Snapshot where
  time : ℚ
  qFast : ℕ
  qEd : ℕ
  uFastDoc : ℚ
  uFastNurse : ℚ
  uEdDoc : ℚ
  uEdNurse : ℚ
  uBeds : ℚ
deriving DecidableEq, Repr

/-- `utilization()` of a pool: occupancy / capacity. -/
def util (pl : Pool) : ℚ := (pl.occupancy : ℚ) / (pl.capacity : ℚ)

/-- Modelled from the spec: the whole state owned by the engine plus the
aggregate result containers of the orchestrator (`wait_times`, `metrics`)
and the cursors into the two random streams. -/
structure EngineState where
  clock : ℚ
  err : Bool
  queue : List Event
  nextSeq : ℕ
  nextPid : ℕ
  pools : PoolId → Pool
  starts : ℕ → ℚ
  waitTimes : List ℚ
  metrics : List Snapshot
  cR : ℕ
  cN : ℕ

/-- The two seeded sample streams: `uni` models the `random` module,
`np` models `np.random`. -/
structure Rnd where
  uni : ℕ → ℚ
  np : ℕ → ℚ

/-- Strict lexicographic order on events: earlier timestamp first, equal
timestamps resolved by insertion sequence number (stable tie-break). -/
def evLt (a b : Event) : Prop :=
  a.time < b.time ∨ (a.time = b.time ∧ a.seq < b.seq)

instance : DecidableRel evLt := fun a b =>
  inferInstanceAs (Decidable (a.time < b.time ∨ (a.time = b.time ∧ a.seq < b.seq)))

/-- Ordered insertion into the event queue, keeping lexicographic order. -/
def insertEv (e : Event) : List Event → List Event
  | [] => [e]
  | x :: xs => if evLt e x then e :: x :: xs else x :: insertEv e xs

/-- Schedule a resumption for `pid` at absolute time `t`, tagged with the
next sequence number. -/
def pushEvent (st : EngineState) (t : ℚ) (pid : ℕ) (k : Proc) : EngineState :=
  { st with queue := insertEv ⟨t, st.nextSeq, pid, k⟩ st.queue, nextSeq := st.nextSeq + 1 }

/-- Replace one pool, leaving the others untouched. -/
def setPool (st : EngineState) (r : PoolId) (pl : Pool) : EngineState :=
  { st with pools := fun x => if x = r then pl else st.pools x }

/-- The queue lengths and utilizations appended by one `monitor` iteration. -/
def mkSnapshot (st : EngineState) : Snapshot :=
  { time := st.clock
    qFast := (st.pools .fastDoctor).waiting.length + (st.pools .fastNurse).waiting.length
    qEd := (st.pools .edDoctor).waiting.length + (st.pools .edNurse).waiting.length
    uFastDoc := util (st.pools .fastDoctor)
    uFastNurse := util (st.pools .fastNurse)
    uEdDoc := util (st.pools .edDoctor)
    uEdNurse := util (st.pools .edNurse)
    uBeds := util (st.pools .beds) }

/-- Modelled from the spec: run one resumed process until it suspends
(timed delay, blocked acquisition) or terminates.  Acquisition admits
immediately while occupancy < capacity and otherwise parks the caller at the
tail of the FIFO wait list; release decrements occupancy and, when the wait
list is non-empty, admits its head at the current instant (zero-duration
handoff) by scheduling its resumption at the current clock; a negative delay
is the fatal `InvalidDelay` programming error. -/
def execProc (rnd : Rnd) : EngineState → ℕ → Proc → EngineState
  | st, _, .done => st
  | st, pid, .delay d k =>
      if d < 0 then { st with err := true }
      else pushEvent st (st.clock + d) pid k
  | st, pid, .acquire r k =>
      if (st.pools r).occupancy < (st.pools r).capacity then
        execProc rnd
          (setPool st r { st.pools r with occupancy := (st.pools r).occupancy + 1 }) pid k
      else
        setPool st r { st.pools r with waiting := (st.pools r).waiting ++ [(pid, k)] }
  | st, pid, .release r k =>
      match (st.pools r).waiting with
      | [] =>
          execProc rnd
            (setPool st r { st.pools r with occupancy := (st.pools r).occupancy - 1 }) pid k
      | (q, qk) :: rest =>
          execProc rnd
            (pushEvent
              (setPool st r
                { st.pools r with occupancy := (st.pools r).occupancy - 1 + 1, waiting := rest })
              st.clock q qk) pid k
  | st, pid, .spawn child k =>
      execProc rnd
        (pushEvent
          { st with nextPid := st.nextPid + 1,
                    starts := Function.update st.starts st.nextPid st.clock }
          st.clock st.nextPid child) pid k
  | st, pid, .record k =>
      execProc rnd { st with waitTimes := st.waitTimes ++ [st.clock - st.starts pid] } pid k
  | st, pid, .snapshot k =>
      execProc rnd { st with metrics := st.metrics ++ [mkSnapshot st] } pid k
  | st, pid, .rand src k =>
      match src with
      | .uniformR => execProc rnd { st with cR := st.cR + 1 } pid (k (rnd.uni st.cR))
      | .normalNp _ _ => execProc rnd { st with cN := st.cN + 1 } pid (k (rnd.np st.cN))
      | .expNp _ => execProc rnd { st with cN := st.cN + 1 } pid (k (rnd.np st.cN))

/-- Modelled from the spec: one scheduler iteration of `run(horizon)`.
If the queue is empty or the earliest event would fire at or beyond the
horizon, the run completes normally with the clock left at the horizon
(events exactly at the horizon do not fire); otherwise the earliest event is
popped, the clock jumps to its timestamp, and its process is resumed. -/
def step1 (rnd : Rnd) (horizon : ℚ) (st : EngineState) : EngineState :=
  if st.err then st
  else
    match st.queue with
    | [] => { st with clock := horizon }
    | e :: rest =>
        if horizon ≤ e.time then { st with clock := horizon }
        else execProc rnd { st with clock := e.time, queue := rest } e.pid e.cont

/-- Engine state after `n` scheduler iterations. -/
def stateAt (rnd : Rnd) (horizon : ℚ) (init : EngineState) (n : ℕ) : EngineState :=
  (step1 rnd horizon)^[n] init

/-- The run has completed normally: no error, and either no events remain or
the next event lies at or beyond the horizon. -/
def normalHalt (horizon : ℚ) (st : EngineState) : Prop :=
  st.err = false ∧ (st.queue = [] ∨ ∃ e rest, st.queue = e :: rest ∧ horizon ≤ e.time)

/-- The pids currently parked in a pool's FIFO wait list, front first. -/
def waitingPids (st : EngineState) (r : PoolId) : List ℕ :=
  ((st.pools r).waiting).map Prod.fst

/-- Engine well-formedness: the event queue is lexicographically sorted, no
queued event lies in the past, all queued sequence numbers are below the
next one to be issued, and every pool has positive capacity with occupancy
at most capacity. -/
def WF (st : EngineState) : Prop :=
  st.queue.Pairwise evLt ∧
  (∀ e ∈ st.queue, st.clock ≤ e.time) ∧
  (∀ e ∈ st.queue, e.seq < st.nextSeq) ∧
  (∀ r : PoolId, 1 ≤ (st.pools r).capacity ∧ (st.pools r).occupancy ≤ (st.pools r).capacity)

instance (st : EngineState) : Decidable (WF st) := by
  unfold WF
  infer_instance

/-! ## The hospital model, translated from `src/main.py` -/

/-- The eight timed activities of the `Hospital` class. -/
inductive Activity where
  | consult
  | medication
  | review
  | admitted
  | fastLab
  | fastLabWait
  | edLab
  | edLabWait
deriving DecidableEq, Repr

/-- Mean, standard deviation and floor of one timed activity. -/
structure ActParams where
  mean : ℚ
  std : ℚ
  floorD : ℚ
deriving DecidableEq, Repr

/-- The parameter table of the `Hospital` activity methods, read off
`max(floor, np.random.normal(mean, std))` in each method body. -/
def actParams : Activity → ActParams
  | .consult => ⟨20, 5, 5⟩
  | .medication => ⟨15, 3, 5⟩
  | .review => ⟨10, 3, 3⟩
  | .admitted => ⟨30, 5, 5⟩
  | .fastLab => ⟨6, 3, 1⟩
  | .fastLabWait => ⟨25, 5, 10⟩
  | .edLab => ⟨10, 4, 3⟩
  | .edLabWait => ⟨40, 10, 15⟩

/-- `normal_floor`: the duration of an activity given the normal sample
drawn for it is the sample clamped from below by the activity's floor. -/
def duration (a : Activity) (sample : ℚ) : ℚ :=
  max (actParams a).floorD sample

/-- One timed activity: draw a normal sample with the activity's
parameters, then hold for the clamped duration. -/
def actP (a : Activity) (k : Proc) : Proc :=
  .rand (.normalNp (actParams a).mean (actParams a).std)
    (fun s => .delay (duration a s) k)

/-- Tail of the fast-track path: medication with the fast-track nurse, then
record the wait time (`wait_times.append(env.now - arrival_time)`). -/
def fastMedication : Proc :=
  .acquire .fastNurse (actP .medication (.release .fastNurse (.record .done)))

/-- The optional fast-track lab sub-sequence: lab with the fast-track
nurse, the unconditional lab wait, then review with the fast-track
doctor. -/
def fastLabSeq : Proc :=
  .acquire .fastNurse (actP .fastLab (.release .fastNurse
    (actP .fastLabWait (.acquire .fastDoctor (actP .review
      (.release .fastDoctor fastMedication))))))

/-- The fast-track branch of `patient`. -/
def fastPath : Proc :=
  .acquire .fastDoctor (actP .consult (.release .fastDoctor
    (.rand .uniformR (fun u => if u < 3/10 then fastLabSeq else fastMedication))))

/-- Final decision of the main-department branch: with probability 0.5 a
bed is acquired for admission, otherwise medication with the main nurse;
either way the wait time is recorded at the end. -/
def edFinal : Proc :=
  .rand .uniformR (fun u =>
    if u < 1/2 then .acquire .beds (actP .admitted (.release .beds (.record .done)))
    else .acquire .edNurse (actP .medication (.release .edNurse (.record .done))))

/-- The optional main-department lab sub-sequence. -/
def edLabSeq : Proc :=
  .acquire .edNurse (actP .edLab (.release .edNurse
    (actP .edLabWait (.acquire .edDoctor (actP .review
      (.release .edDoctor edFinal))))))

/-- The main-department branch of `patient`. -/
def edPath : Proc :=
  .acquire .edDoctor (actP .consult (.release .edDoctor
    (.rand .uniformR (fun u => if u < 7/10 then edLabSeq else edFinal))))

/-- The `patient` process: one uniform draw chooses the track (fast track
iff the draw is below 0.3), permanently. -/
def patientProc : Proc :=
  .rand .uniformR (fun u => if u < 3/10 then fastPath else edPath)

/-- `patient_generator`: for each of `n` patients, spawn the patient
process at the current instant, then sample an exponential inter-arrival
delay with mean `rate` and wait for it. -/
def genProc (rate : ℚ) : ℕ → Proc
  | 0 => .done
  | n + 1 => .spawn patientProc (.rand (.expNp rate) (fun d => .delay d (genProc rate n)))

/-- The `monitor` loop, truncated at a fuel bound (the real loop is
infinite and is cut off by the horizon): append one snapshot, then wait the
fixed 5-minute interval. -/
def monitorProc : ℕ → Proc
  | 0 => .done
  | n + 1 => .snapshot (.delay 5 (monitorProc n))

/-- The configuration bundle accepted by `main` (argparse arguments). -/
structure Config where
  fastDoctors : ℤ
  fastNurses : ℤ
  edDoctors : ℤ
  edNurses : ℤ
  beds : ℤ
  nPatients : ℤ
  simTime : ℚ
  arrivalRate : ℚ

/-- The error taxonomy entry raised for a bad configuration. -/
inductive ConfigError where
  | invalidConfiguration
deriving DecidableEq, Repr

/-- All five resource capacities are positive. -/
def capsPositive (cfg : Config) : Prop :=
  0 < cfg.fastDoctors ∧ 0 < cfg.fastNurses ∧ 0 < cfg.edDoctors ∧
    0 < cfg.edNurses ∧ 0 < cfg.beds

instance (cfg : Config) : Decidable (capsPositive cfg) := by
  unfold capsPositive
  infer_instance

/-- The configured capacity of each pool. -/
def capOf (cfg : Config) : PoolId → ℤ
  | .fastDoctor => cfg.fastDoctors
  | .fastNurse => cfg.fastNurses
  | .edDoctor => cfg.edDoctors
  | .edNurse => cfg.edNurses
  | .beds => cfg.beds

/-- Number of monitor iterations that fit before the horizon. -/
def monFuel (cfg : Config) : ℕ := (⌈cfg.simTime / 5⌉).toNat + 1

/-- Scheduler-iteration budget, generously overapproximating the number of
events of a run. -/
def fuelFor (cfg : Config) : ℕ := 64 * (cfg.nPatients.toNat + 2) + 2 * monFuel cfg + 8

/-- Initial engine state of `main`: empty pools with the configured
capacities, the generator registered first (sequence 0) and the monitor
second (sequence 1), both due at time 0, clock at 0. -/
def mkInit (cfg : Config) : EngineState :=
  { clock := 0
    err := false
    queue := [⟨0, 0, 0, genProc cfg.arrivalRate cfg.nPatients.toNat⟩,
              ⟨0, 1, 1, monitorProc (monFuel cfg)⟩]
    nextSeq := 2
    nextPid := 2
    pools := fun r => ⟨(capOf cfg r).toNat, 0, []⟩
    starts := fun _ => 0
    waitTimes := []
    metrics := []
    cR := 0
    cN := 0 }

/-- The orchestrator `main`: validate the pool capacities (modelled from
the spec — the engine rejects a non-positive resource capacity when the
pool is constructed, before any scheduling begins; the source's `simpy`
engine is not under `src/`), then run the scheduler to the horizon.  The
patient count is consumed only through `range(n_patients)`, hence never
validated. -/
def runMain (cfg : Config) (rnd : Rnd) : Except ConfigError EngineState :=
  if capsPositive cfg then
    .ok (stateAt rnd cfg.simTime (mkInit cfg) (fuelFor cfg))
  else
    .error .invalidConfiguration

/-- Wait-time list exposed to reporting. -/
def resultWaitTimes : Except ConfigError EngineState → List ℚ
  | .ok st => st.waitTimes
  | .error _ => []

/-- Metrics snapshot series exposed to reporting. -/
def resultMetrics : Except ConfigError EngineState → List Snapshot
  | .ok st => st.metrics
  | .error _ => []

/-! ## Trace extraction and spec-side step sequences -/

/-- Observable steps of a process body, used to compare the translated
`patient` code with the state machine described in the design document. -/
inductive TStep where
  | sAcq (r : PoolId)
  | sRel (r : PoolId)
  | sDrawU
  | sNorm (mean std : ℚ)
  | sExp (mean : ℚ)
  | sDelay (d : ℚ)
  | sRec
  | sSpawn
  | sSnap
deriving DecidableEq, Repr

/-- Linearize a process body into its step sequence, resolving each random
draw with the stream `f` starting at index `i` (spawned children are marked
but not inlined). -/
def trace : Proc → (ℕ → ℚ) → ℕ → List TStep
  | .done, _, _ => []
  | .delay d k, f, i => .sDelay d :: trace k f i
  | .acquire r k, f, i => .sAcq r :: trace k f i
  | .release r k, f, i => .sRel r :: trace k f i
  | .spawn _ k, f, i => .sSpawn :: trace k f i
  | .record k, f, i => .sRec :: trace k f i
  | .snapshot k, f, i => .sSnap :: trace k f i
  | .rand src k, f, i =>
      (match src with
       | .uniformR => TStep.sDrawU
       | .normalNp m s => TStep.sNorm m s
       | .expNp m => TStep.sExp m) :: trace (k (f i)) f (i + 1)

/-- The pools an acquire or release step touches. -/
def touchedPool : TStep → Option PoolId
  | .sAcq r => some r
  | .sRel r => some r
  | _ => none

/-- All pools touched along a step sequence. -/
def touchedPools (l : List TStep) : List PoolId := l.filterMap touchedPool

/-- A timed activity as the spec describes it: a normal draw with the
tabulated mean and standard deviation followed by a hold for
`max(floor, sample)`. -/
def specActSteps (mean std floorv s : ℚ) : List TStep :=
  [.sNorm mean std, .sDelay (max floorv s)]

/-- The §4.4 patient state machine, written from the spec's words: one
track draw (fast iff below 0.3); the fast path is consult with the
fast-track doctor, a 0.3-probability lab/lab-wait/review sub-sequence, then
unconditional medication with the fast-track nurse; the main path is
consult with the main doctor, a 0.7-probability lab/lab-wait/review
sub-sequence, then exactly one of admission with a bed (probability 0.5) or
medication with the main nurse; each path ends by recording the wait
time.  Durations and parameters come from the §4.4 table. -/
def specPatientSteps (f : ℕ → ℚ) : List TStep :=
  if f 0 < 3/10 then
    [TStep.sDrawU, .sAcq .fastDoctor] ++ specActSteps 20 5 5 (f 1) ++
      [.sRel .fastDoctor, .sDrawU] ++
      (if f 2 < 3/10 then
        [.sAcq .fastNurse] ++ specActSteps 6 3 1 (f 3) ++ [.sRel .fastNurse] ++
          specActSteps 25 5 10 (f 4) ++
          [.sAcq .fastDoctor] ++ specActSteps 10 3 3 (f 5) ++ [.sRel .fastDoctor] ++
          [.sAcq .fastNurse] ++ specActSteps 15 3 5 (f 6) ++ [.sRel .fastNurse, .sRec]
      else
        [.sAcq .fastNurse] ++ specActSteps 15 3 5 (f 3) ++ [.sRel .fastNurse, .sRec])
  else
    [TStep.sDrawU, .sAcq .edDoctor] ++ specActSteps 20 5 5 (f 1) ++
      [.sRel .edDoctor, .sDrawU] ++
      (if f 2 < 7/10 then
        [.sAcq .edNurse] ++ specActSteps 10 4 3 (f 3) ++ [.sRel .edNurse] ++
          specActSteps 40 10 15 (f 4) ++
          [.sAcq .edDoctor] ++ specActSteps 10 3 3 (f 5) ++ [.sRel .edDoctor, .sDrawU] ++
          (if f 6 < 1/2 then [.sAcq .beds] ++ specActSteps 30 5 5 (f 7) ++ [.sRel .beds, .sRec]
          else [.sAcq .edNurse] ++ specActSteps 15 3 5 (f 7) ++ [.sRel .edNurse, .sRec])
      else
        [TStep.sDrawU] ++
          (if f 3 < 1/2 then [.sAcq .beds] ++ specActSteps 30 5 5 (f 4) ++ [.sRel .beds, .sRec]
          else [.sAcq .edNurse] ++ specActSteps 15 3 5 (f 4) ++ [.sRel .edNurse, .sRec]))

/-- Spawn times of the arrival generator loop: the patient is spawned at
the current time, then the clock advances by the sampled delay. -/
def genArrivalsAux (t : ℚ) : List ℚ → List ℚ
  | [] => []
  | d :: ds => t :: genArrivalsAux (t + d) ds

/-! ## Abstract queue evolution (FIFO discipline) -/

/-- Primitive wait-list operations: the engine only ever appends a
requester at the back or admits the head. -/
inductive QOp where
  | push (a : ℕ)
  | pop
deriving DecidableEq, Repr

/-- Apply one primitive wait-list operation. -/
def applyQOp (l : List ℕ) : QOp → List ℕ
  | .push a => l ++ [a]
  | .pop => l.tail

/-- Apply a sequence of wait-list operations, oldest first. -/
def evolve (ops : List QOp) (l : List ℕ) : List ℕ :=
  ops.foldl applyQOp l

/-- The pids pushed during a sequence of wait-list operations. -/
def pushedElems (ops : List QOp) : List ℕ :=
  ops.filterMap (fun op => match op with | .push a => some a | .pop => none)

/-- A wait list reachable from `l` via FIFO discipline only. -/
def Reach (l l' : List ℕ) : Prop := ∃ ops, l' = evolve ops l

/-! ## Concrete fixtures used by scenario conjuncts, counterexamples and
witnesses -/

/-- Sample streams that are never consulted (scenario processes draw no
randomness). -/
def rndZ : Rnd := ⟨fun _ => 0, fun _ => 0⟩

/-- Deterministic streams: every uniform draw is 1/2, every distribution
sample is 5. -/
def rnd0 : Rnd := ⟨fun _ => 1/2, fun _ => 5⟩

/-- Scenario 3, first requester: acquire the capacity-1 pool, hold it for
10 time units, release. -/
def scnFirst : Proc := .acquire .fastDoctor (.delay 10 (.release .fastDoctor .done))

/-- Scenario 3, second requester: acquire the same pool and release at
once. -/
def scnSecond : Proc := .acquire .fastDoctor (.release .fastDoctor .done)

/-- Scenario 3 initial state: one capacity-1 pool of interest and both
requesters scheduled at the same timestamp 0, first requester first. -/
def scenarioInit : EngineState :=
  { clock := 0
    err := false
    queue := [⟨0, 0, 1, scnFirst⟩, ⟨0, 1, 2, scnSecond⟩]
    nextSeq := 2
    nextPid := 3
    pools := fun _ => ⟨1, 0, []⟩
    starts := fun _ => 0
    waitTimes := []
    metrics := []
    cR := 0
    cN := 0 }

/-- Scenario 3 state after `n` scheduler iterations. -/
def scnAt (n : ℕ) : EngineState := stateAt rndZ 100 scenarioInit n

/-- Arrival timestamp recorded for process `p` by a completed run. -/
def startOfPid (x : Except ConfigError EngineState) (p : ℕ) : ℚ :=
  match x with
  | .ok st => st.starts p
  | .error _ => 0

/-- A small valid configuration with three patients. -/
def cfgThree : Config := ⟨1, 1, 1, 1, 1, 3, 60, 10⟩

/-- A configuration with positive capacities and zero patients. -/
def cfgZeroPatients : Config := ⟨1, 1, 1, 1, 1, 0, 30, 10⟩

/-- A configuration with a non-positive capacity (no beds). -/
def cfgNoBeds : Config := ⟨1, 1, 1, 1, 0, 3, 30, 10⟩

/-- A state whose capacity-1 pools are all occupied, with pid 2 parked at
the head of each wait list. -/
def busyInit : EngineState :=
  { scenarioInit with pools := fun _ => ⟨1, 1, [(2, Proc.done)]⟩ }

end EDSim

namespace EDSim

/-! ## Basic engine lemmas -/

@[simp] theorem pushEvent_clock (st : EngineState) (t : ℚ) (p : ℕ) (k : Proc) :
    (pushEvent st t p k).clock = st.clock := rfl

@[simp] theorem pushEvent_pools (st : EngineState) (t : ℚ) (p : ℕ) (k : Proc) :
    (pushEvent st t p k).pools = st.pools := rfl

@[simp] theorem pushEvent_queue (st : EngineState) (t : ℚ) (p : ℕ) (k : Proc) :
    (pushEvent st t p k).queue = insertEv ⟨t, st.nextSeq, p, k⟩ st.queue := rfl

@[simp] theorem pushEvent_nextSeq (st : EngineState) (t : ℚ) (p : ℕ) (k : Proc) :
    (pushEvent st t p k).nextSeq = st.nextSeq + 1 := rfl

@[simp] theorem setPool_clock (st : EngineState) (r : PoolId) (pl : Pool) :
    (setPool st r pl).clock = st.clock := rfl

@[simp] theorem setPool_queue (st : EngineState) (r : PoolId) (pl : Pool) :
    (setPool st r pl).queue = st.queue := rfl

@[simp] theorem setPool_nextSeq (st : EngineState) (r : PoolId) (pl : Pool) :
    (setPool st r pl).nextSeq = st.nextSeq := rfl

@[simp] theorem setPool_pools_same (st : EngineState) (r : PoolId) (pl : Pool) :
    (setPool st r pl).pools r = pl := by simp [setPool]

theorem setPool_pools_ne (st : EngineState) (r : PoolId) (pl : Pool) {x : PoolId}
    (h : x ≠ r) : (setPool st r pl).pools x = st.pools x := by simp [setPool, h]

theorem evLt_time_le {a b : Event} (h : evLt a b) : a.time ≤ b.time := by
  rcases h with h | ⟨h, _⟩
  · exact le_of_lt h
  · exact le_of_eq h

theorem evLt_trans {a b c : Event} (hab : evLt a b) (hbc : evLt b c) : evLt a c := by
  rcases hab with h1 | ⟨h1, s1⟩ <;> rcases hbc with h2 | ⟨h2, s2⟩
  · exact Or.inl (lt_trans h1 h2)
  · exact Or.inl (h2 ▸ h1)
  · exact Or.inl (h1 ▸ h2)
  · exact Or.inr ⟨h1.trans h2, Nat.lt_trans s1 s2⟩

theorem mem_insertEv {x e : Event} : ∀ {l : List Event}, x ∈ insertEv e l ↔ x = e ∨ x ∈ l := by
  intro l
  induction l with
  | nil => simp [insertEv]
  | cons y ys ih =>
    simp only [insertEv]
    split
    · simp [List.mem_cons]
    · simp only [List.mem_cons, ih]
      tauto

theorem pairwise_insertEv {e : Event} :
    ∀ {l : List Event}, l.Pairwise evLt → (∀ x ∈ l, x.seq < e.seq) →
      (insertEv e l).Pairwise evLt := by
  intro l
  induction l with
  | nil => intro _ _; simp [insertEv]
  | cons y ys ih =>
    intro hs hseq
    rcases List.pairwise_cons.mp hs with ⟨hy, hys⟩
    simp only [insertEv]
    split
    case isTrue h =>
      refine List.pairwise_cons.mpr ⟨?_, hs⟩
      intro z hz
      rcases List.mem_cons.mp hz with rfl | hz
      · exact h
      · exact evLt_trans h (hy z hz)
    case isFalse h =>
      refine List.pairwise_cons.mpr
        ⟨?_, ih hys (fun x hx => hseq x (List.mem_cons_of_mem _ hx))⟩
      intro z hz
      rcases mem_insertEv.mp hz with rfl | hz
      · have hy_seq := hseq y (List.mem_cons_self _ _)
        rcases lt_or_eq_of_le (le_of_not_lt (fun hlt => h (Or.inl hlt))) with hlt | heq
        · exact Or.inl hlt
        · exact Or.inr ⟨heq, hy_seq⟩
      · exact hy z hz

theorem execProc_clock (rnd : Rnd) :
    ∀ (p : Proc) (st : EngineState) (pid : ℕ), (execProc rnd st pid p).clock = st.clock := by
  intro p
  induction p with
  | done => intro st pid; rfl
  | delay d k ih => intro st pid; simp only [execProc]; split <;> rfl
  | acquire r k ih =>
    intro st pid
    simp only [execProc]
    split
    · rw [ih]; rfl
    · rfl
  | release r k ih =>
    intro st pid
    simp only [execProc]
    split <;> rw [ih] <;> rfl
  | spawn child k ihc ihk => intro st pid; simp only [execProc]; rw [ihk]; rfl
  | record k ih => intro st pid; simp only [execProc]; rw [ih]
  | snapshot k ih => intro st pid; simp only [execProc]; rw [ih]
  | rand src k ih =>
    intro st pid
    simp only [execProc]
    cases src <;> rw [ih]


theorem WF_pushEvent {st : EngineState} {t : ℚ} (pid : ℕ) (k : Proc)
    (h : WF st) (ht : st.clock ≤ t) : WF (pushEvent st t pid k) := by
  obtain ⟨h1, h2, h3, h4⟩ := h
  refine ⟨?_, ?_, ?_, h4⟩
  · exact pairwise_insertEv h1 (fun x hx => h3 x hx)
  · intro e he
    rcases mem_insertEv.mp (by exact he) with rfl | he
    · exact ht
    · exact h2 e he
  · intro e he
    rcases mem_insertEv.mp (by exact he) with rfl | he
    · exact Nat.lt_succ_self _
    · exact Nat.lt_succ_of_lt (h3 e he)

theorem WF_setPool {st : EngineState} {r : PoolId} {pl : Pool}
    (h : WF st) (hcap : 1 ≤ pl.capacity) (hocc : pl.occupancy ≤ pl.capacity) :
    WF (setPool st r pl) := by
  obtain ⟨h1, h2, h3, h4⟩ := h
  refine ⟨h1, h2, h3, ?_⟩
  intro x
  by_cases hx : x = r
  · subst hx; rw [setPool_pools_same]; exact ⟨hcap, hocc⟩
  · rw [setPool_pools_ne st r pl hx]; exact h4 x

theorem execProc_WF (rnd : Rnd) :
    ∀ (p : Proc) (st : EngineState) (pid : ℕ), WF st → WF (execProc rnd st pid p) := by
  intro p
  induction p with
  | done => intro st pid h; exact h
  | delay d k ih =>
    intro st pid h
    simp only [execProc]
    split
    case isTrue => exact h
    case isFalse hd =>
      exact WF_pushEvent pid k h (by linarith [not_lt.mp hd])
  | acquire r k ih =>
    intro st pid h
    simp only [execProc]
    split
    case isTrue hlt =>
      exact ih _ _ (WF_setPool h (h.2.2.2 r).1 hlt)
    case isFalse hge =>
      exact WF_setPool h (h.2.2.2 r).1 (h.2.2.2 r).2
  | release r k ih =>
    intro st pid h
    have hr := h.2.2.2 r
    simp only [execProc]
    split
    · exact ih _ _ (WF_setPool h hr.1 (le_trans (Nat.sub_le _ _) hr.2))
    · refine ih _ _ (WF_pushEvent _ _ (WF_setPool h hr.1 ?_) (le_refl _))
      show (st.pools r).occupancy - 1 + 1 ≤ (st.pools r).capacity
      have := hr.1
      have := hr.2
      omega
  | spawn child k ihc ihk =>
    intro st pid h
    simp only [execProc]
    exact ihk _ _ (WF_pushEvent _ _ h (le_refl _))
  | record k ih => intro st pid h; simp only [execProc]; exact ih _ _ h
  | snapshot k ih => intro st pid h; simp only [execProc]; exact ih _ _ h
  | rand src k ih =>
    intro st pid h
    simp only [execProc]
    cases src <;> exact ih _ _ _ h


theorem step1_WF {rnd : Rnd} {horizon : ℚ} {st : EngineState} (h : WF st) :
    WF (step1 rnd horizon st) := by
  obtain ⟨h1, h2, h3, h4⟩ := h
  unfold step1
  split
  · exact ⟨h1, h2, h3, h4⟩
  split
  case h_1 heq =>
    refine ⟨h1, ?_, h3, h4⟩
    intro e he
    exact absurd (heq ▸ he) (List.not_mem_nil e)
  case h_2 e rest heq =>
    split
    case isTrue hge =>
      refine ⟨h1, ?_, h3, h4⟩
      intro x hx
      rcases List.mem_cons.mp (heq ▸ hx) with rfl | hx
      · exact hge
      · exact le_trans hge (evLt_time_le ((List.pairwise_cons.mp (heq ▸ h1)).1 x hx))
    case isFalse hlt =>
      refine execProc_WF rnd e.cont _ e.pid ?_
      have hp := heq ▸ h1
      rcases List.pairwise_cons.mp hp with ⟨he, hrest⟩
      refine ⟨hrest, ?_, ?_, h4⟩
      · intro x hx
        exact evLt_time_le (he x hx)
      · intro x hx
        exact h3 x (heq ▸ List.mem_cons_of_mem e hx)

theorem step1_clock_le {rnd : Rnd} {horizon : ℚ} {st : EngineState}
    (h : WF st) (hc : st.clock ≤ horizon) : (step1 rnd horizon st).clock ≤ horizon := by
  unfold step1
  split
  · exact hc
  split
  · exact le_refl _
  case h_2 e rest heq =>
    split
    case isTrue hge => exact le_refl _
    case isFalse hlt =>
      rw [execProc_clock]
      exact le_of_not_le hlt

theorem step1_clock_mono {rnd : Rnd} {horizon : ℚ} {st : EngineState}
    (h : WF st) (hc : st.clock ≤ horizon) : st.clock ≤ (step1 rnd horizon st).clock := by
  unfold step1
  split
  · exact le_refl _
  split
  · exact hc
  case h_2 e rest heq =>
    split
    case isTrue hge => exact hc
    case isFalse hlt =>
      rw [execProc_clock]
      exact h.2.1 e (heq ▸ List.mem_cons_self e rest)

theorem stateAt_succ (rnd : Rnd) (horizon : ℚ) (init : EngineState) (n : ℕ) :
    stateAt rnd horizon init (n + 1) = step1 rnd horizon (stateAt rnd horizon init n) := by
  unfold stateAt
  exact Function.iterate_succ_apply' _ _ _

theorem stateAt_WF {rnd : Rnd} {horizon : ℚ} {init : EngineState} (h : WF init) :
    ∀ n, WF (stateAt rnd horizon init n) := by
  intro n
  induction n with
  | zero => exact h
  | succ n ih => rw [stateAt_succ]; exact step1_WF ih

theorem stateAt_clock_le {rnd : Rnd} {horizon : ℚ} {init : EngineState}
    (h : WF init) (hc : init.clock ≤ horizon) :
    ∀ n, (stateAt rnd horizon init n).clock ≤ horizon := by
  intro n
  induction n with
  | zero => exact hc
  | succ n ih => rw [stateAt_succ]; exact step1_clock_le (stateAt_WF h n) ih


/-! ## FIFO wait-list discipline -/

theorem evolve_append (o1 o2 : List QOp) (l : List ℕ) :
    evolve (o1 ++ o2) l = evolve o2 (evolve o1 l) :=
  List.foldl_append _ _ _ _

theorem reach_refl (l : List ℕ) : Reach l l := ⟨[], rfl⟩

theorem reach_of_eq {l l' : List ℕ} (h : l = l') : Reach l l' := ⟨[], h.symm ▸ rfl⟩

theorem reach_trans {a b c : List ℕ} (h1 : Reach a b) (h2 : Reach b c) : Reach a c := by
  obtain ⟨o1, rfl⟩ := h1
  obtain ⟨o2, rfl⟩ := h2
  exact ⟨o1 ++ o2, (evolve_append o1 o2 a).symm⟩

theorem reach_push (l : List ℕ) (a : ℕ) : Reach l (l ++ [a]) := ⟨[.push a], rfl⟩

theorem reach_pop (l : List ℕ) : Reach l l.tail := ⟨[.pop], rfl⟩

theorem waitingPids_setPool (st : EngineState) (r : PoolId) (pl : Pool) (x : PoolId) :
    waitingPids (setPool st r pl) x =
      if x = r then pl.waiting.map Prod.fst else waitingPids st x := by
  unfold waitingPids
  by_cases h : x = r
  · simp [h, setPool_pools_same]
  · simp [h, setPool_pools_ne st r pl h]

theorem execProc_reach (rnd : Rnd) :
    ∀ (p : Proc) (st : EngineState) (pid : ℕ) (r : PoolId),
      Reach (waitingPids st r) (waitingPids (execProc rnd st pid p) r) := by
  intro p
  induction p with
  | done => intro st pid r; exact reach_refl _
  | delay d k ih =>
    intro st pid r
    simp only [execProc]
    split
    · exact reach_refl _
    · exact reach_refl _
  | acquire r2 k ih =>
    intro st pid r
    simp only [execProc]
    split
    case isTrue hlt =>
      have h2 : waitingPids
          (setPool st r2 { st.pools r2 with occupancy := (st.pools r2).occupancy + 1 }) r
          = waitingPids st r := by
        rw [waitingPids_setPool]
        by_cases hr : r = r2
        · subst hr; simp [waitingPids]
        · simp [hr]
      have := ih (setPool st r2 { st.pools r2 with occupancy := (st.pools r2).occupancy + 1 })
        pid r
      rwa [h2] at this
    case isFalse hge =>
      rw [waitingPids_setPool]
      by_cases hr : r = r2
      · subst hr
        simp only [if_pos rfl, List.map_append]
        exact reach_push _ pid
      · rw [if_neg hr]
        exact reach_refl _
  | release r2 k ih =>
    intro st pid r
    simp only [execProc]
    split
    case h_1 heq =>
      have h2 : waitingPids
          (setPool st r2 { st.pools r2 with occupancy := (st.pools r2).occupancy - 1 }) r
          = waitingPids st r := by
        rw [waitingPids_setPool]
        by_cases hr : r = r2
        · subst hr; simp [waitingPids]
        · simp [hr]
      have := ih (setPool st r2 { st.pools r2 with occupancy := (st.pools r2).occupancy - 1 })
        pid r
      rwa [h2] at this
    case h_2 q qk rest heq =>
      refine reach_trans (b := waitingPids
        (pushEvent
          (setPool st r2
            { st.pools r2 with occupancy := (st.pools r2).occupancy - 1 + 1, waiting := rest })
          st.clock q qk) r) ?_ (ih _ _ _)
      show Reach (waitingPids st r) (waitingPids (setPool st r2
        { st.pools r2 with occupancy := (st.pools r2).occupancy - 1 + 1, waiting := rest }) r)
      rw [waitingPids_setPool]
      by_cases hr : r = r2
      · subst hr
        rw [if_pos rfl]
        refine reach_trans (reach_pop (waitingPids st r)) (reach_of_eq ?_)
        unfold waitingPids
        rw [heq]
        rfl
      · rw [if_neg hr]
        exact reach_refl _
  | spawn child k ihc ihk => intro st pid r; exact ihk _ _ _
  | record k ih => intro st pid r; exact ih _ _ _
  | snapshot k ih => intro st pid r; exact ih _ _ _
  | rand src k ih =>
    intro st pid r
    simp only [execProc]
    cases src <;> exact ih _ _ _ _

theorem step1_reach (rnd : Rnd) (horizon : ℚ) (st : EngineState) (r : PoolId) :
    Reach (waitingPids st r) (waitingPids (step1 rnd horizon st) r) := by
  unfold step1
  split
  · exact reach_refl _
  split
  · exact reach_refl _
  split
  · exact reach_refl _
  · exact execProc_reach rnd _ _ _ _

theorem stateAt_reach (rnd : Rnd) (horizon : ℚ) (init : EngineState) (r : PoolId) :
    ∀ n, Reach (waitingPids init r) (waitingPids (stateAt rnd horizon init n) r) := by
  intro n
  induction n with
  | zero => exact reach_refl _
  | succ n ih =>
    rw [stateAt_succ]
    exact reach_trans ih (step1_reach rnd horizon _ r)

theorem pushedElems_cons_push (c : ℕ) (ops : List QOp) :
    pushedElems (QOp.push c :: ops) = c :: pushedElems ops := by
  simp [pushedElems, List.filterMap_cons]

theorem pushedElems_cons_pop (ops : List QOp) :
    pushedElems (QOp.pop :: ops) = pushedElems ops := by
  simp [pushedElems, List.filterMap_cons]

theorem mem_evolve {x : ℕ} :
    ∀ (ops : List QOp) (l : List ℕ), x ∈ evolve ops l → x ∈ l ∨ x ∈ pushedElems ops := by
  intro ops
  induction ops with
  | nil => intro l h; exact Or.inl h
  | cons op ops ih =>
    intro l h
    rw [show evolve (op :: ops) l = evolve ops (applyQOp l op) from rfl] at h
    rcases ih _ h with h3 | h3
    · cases op with
      | push c =>
        rcases List.mem_append.mp h3 with h4 | h4
        · exact Or.inl h4
        · exact Or.inr
            (by rw [pushedElems_cons_push, List.mem_singleton.mp h4]
                exact List.mem_cons_self _ _)
      | pop => exact Or.inl ((List.tail_sublist l).subset h3)
    · cases op with
      | push c =>
        exact Or.inr (by rw [pushedElems_cons_push]; exact List.mem_cons_of_mem _ h3)
      | pop => exact Or.inr (by rw [pushedElems_cons_pop]; exact h3)

theorem fifo_evolve {a b : ℕ} :
    ∀ (ops : List QOp) (l u v w : List ℕ), l = u ++ a :: v ++ b :: w →
      a ∉ u → a ∉ v → a ∉ w → a ≠ b → a ∉ pushedElems ops →
      b ∉ evolve ops l → a ∉ evolve ops l := by
  intro ops
  induction ops with
  | nil =>
    intro l u v w hl hu hv hw hab ha hb
    exact absurd (by subst hl; simp [evolve]) hb
  | cons op ops ih =>
    intro l u v w hl hu hv hw hab ha hb hmem
    rw [show evolve (op :: ops) l = evolve ops (applyQOp l op) from rfl] at hb hmem
    cases op with
    | push c =>
      rw [pushedElems_cons_push] at ha
      have hac : a ≠ c := fun hEq => ha (hEq ▸ List.mem_cons_self _ _)
      have ha2 : a ∉ pushedElems ops := fun hIn => ha (List.mem_cons_of_mem _ hIn)
      refine ih (l ++ [c]) u v (w ++ [c]) (by rw [hl]; simp) hu hv ?_ hab ha2 hb hmem
      intro hIn
      rcases List.mem_append.mp hIn with h4 | h4
      · exact hw h4
      · exact hac (List.mem_singleton.mp h4)
    | pop =>
      rw [pushedElems_cons_pop] at ha
      cases u with
      | nil =>
        simp only [List.nil_append] at hl
        have htail : l.tail = v ++ b :: w := by rw [hl]; rfl
        have hnotin : a ∉ l.tail := by
          rw [htail]
          intro hIn
          rcases List.mem_append.mp hIn with h4 | h4
          · exact hv h4
          · rcases List.mem_cons.mp h4 with h5 | h5
            · exact hab h5
            · exact hw h5
        rcases mem_evolve ops l.tail hmem with h3 | h3
        · exact hnotin h3
        · exact ha h3
      | cons x u2 =>
        have htail : l.tail = u2 ++ a :: v ++ b :: w := by rw [hl]; rfl
        exact ih l.tail u2 v w htail
          (fun hIn => hu (List.mem_cons_of_mem x hIn)) hv hw hab ha hb hmem


/-! ## Claim theorems -/

/-- Claim C1: for every resource pool (fast-track doctor, fast-track nurse,
main doctor, main nurse, bed) and after any number of scheduler steps of any
run from a well-formed initial state, 0 ≤ occupancy ≤ capacity; and in the
concrete scenario of one capacity-1 pool with two processes requesting at
the same timestamp, the first holds the pool while the second is parked in
the wait list, occupancy never reaches 2, and the second is admitted exactly
at the instant of the first requester's release (time 10). -/
theorem claim_C1_pool_occupancy_bounds :
    (∀ (rnd : Rnd) (horizon : ℚ) (init : EngineState), WF init →
      ∀ (n : ℕ) (r : PoolId),
        0 ≤ ((stateAt rnd horizon init n).pools r).occupancy ∧
          ((stateAt rnd horizon init n).pools r).occupancy ≤
            ((stateAt rnd horizon init n).pools r).capacity) ∧
    (((scnAt 1).pools .fastDoctor).occupancy = 1 ∧
      ((scnAt 2).pools .fastDoctor).occupancy = 1 ∧
      waitingPids (scnAt 2) .fastDoctor = [2] ∧
      (scnAt 3).clock = 10 ∧
      (scnAt 3).queue.map (fun e => (e.time, e.pid)) = [(10, 2)] ∧
      ((scnAt 4).pools .fastDoctor).occupancy = 0 ∧
      ∀ n, n < 8 → ((scnAt n).pools .fastDoctor).occupancy ≤ 1) := by
  constructor
  · intro rnd horizon init h n r
    exact ⟨Nat.zero_le _, ((stateAt_WF h n).2.2.2 r).2⟩
  · refine ⟨?_, ?_, ?_, ?_, ?_, ?_, ?_⟩ <;> with_unfolding_all decide

/-- Witness for C1: the general bound applied to the concrete scenario
state after two scheduler steps, on the contended pool. -/
theorem claim_C1_witness :
    0 ≤ ((stateAt rndZ 100 scenarioInit 2).pools .fastDoctor).occupancy ∧
      ((stateAt rndZ 100 scenarioInit 2).pools .fastDoctor).occupancy ≤
        ((stateAt rndZ 100 scenarioInit 2).pools .fastDoctor).capacity :=
  claim_C1_pool_occupancy_bounds.1 rndZ 100 scenarioInit (by decide) 2 .fastDoctor

/-- Claim C3: from a well-formed initial state whose clock is at most the
horizon, the clock is monotonically non-decreasing step to step, never
exceeds the horizon, and one step after any normal-completion state the
clock equals the horizon even if no event fired exactly there. -/
theorem claim_C3_clock_monotone_bounded :
    ∀ (rnd : Rnd) (horizon : ℚ) (init : EngineState), WF init →
      init.clock ≤ horizon →
      (∀ n, (stateAt rnd horizon init n).clock ≤ (stateAt rnd horizon init (n + 1)).clock) ∧
      (∀ n, (stateAt rnd horizon init n).clock ≤ horizon) ∧
      (∀ n, normalHalt horizon (stateAt rnd horizon init n) →
        (stateAt rnd horizon init (n + 1)).clock = horizon) := by
  intro rnd horizon init h hc
  refine ⟨?_, stateAt_clock_le h hc, ?_⟩
  · intro n
    rw [stateAt_succ]
    exact step1_clock_mono (stateAt_WF h n) (stateAt_clock_le h hc n)
  · intro n hh
    obtain ⟨he, hq⟩ := hh
    rw [stateAt_succ]
    unfold step1
    rw [he]
    rcases hq with hq | ⟨e, rest, hq, hge⟩
    · simp [hq]
    · simp [hq, hge]

/-- Witness for C3: the clock facts instantiated on the concrete scenario
run, with both hypotheses discharged by evaluation. -/
theorem claim_C3_witness :
    (∀ n, (stateAt rndZ 100 scenarioInit n).clock ≤
        (stateAt rndZ 100 scenarioInit (n + 1)).clock) ∧
      (∀ n, (stateAt rndZ 100 scenarioInit n).clock ≤ 100) ∧
      (∀ n, normalHalt 100 (stateAt rndZ 100 scenarioInit n) →
        (stateAt rndZ 100 scenarioInit (n + 1)).clock = 100) :=
  claim_C3_clock_monotone_bounded rndZ 100 scenarioInit (by decide)
    (by show (0 : ℚ) ≤ 100; norm_num)

/-- Claim C4: the event queue of any run from a well-formed state stays
lexicographically sorted by (timestamp, schedule sequence); scheduling
assigns strictly increasing sequence numbers, so of two events scheduled at
equal timestamps the earlier schedule call carries the smaller sequence
number; in a sorted queue an event with smaller timestamp — or equal
timestamp and smaller sequence number — sits strictly earlier, and the
scheduler always resumes the head of the queue, so tie-broken events resume
in schedule-call order and distinct timestamps resume in timestamp
order. -/
theorem claim_C4_stable_tiebreak :
    (∀ (rnd : Rnd) (horizon : ℚ) (init : EngineState), WF init →
      ∀ n, ((stateAt rnd horizon init n).queue).Pairwise evLt) ∧
    (∀ (st : EngineState) (t : ℚ) (pid : ℕ) (k : Proc),
      (pushEvent st t pid k).nextSeq = st.nextSeq + 1 ∧
        ∀ x ∈ (pushEvent st t pid k).queue,
          x ∈ st.queue ∨ x = ⟨t, st.nextSeq, pid, k⟩) ∧
    (∀ (l : List Event), l.Pairwise evLt → ∀ (i j : Fin l.length),
      ((l.get i).time < (l.get j).time ∨
        ((l.get i).time = (l.get j).time ∧ (l.get i).seq < (l.get j).seq)) → i < j) ∧
    (∀ (rnd : Rnd) (horizon : ℚ) (st : EngineState) (e : Event) (rest : List Event),
      st.err = false → st.queue = e :: rest → e.time < horizon →
      step1 rnd horizon st =
        execProc rnd { st with clock := e.time, queue := rest } e.pid e.cont) := by
  refine ⟨?_, ?_, ?_, ?_⟩
  · intro rnd horizon init h n
    exact (stateAt_WF h n).1
  · intro st t pid k
    refine ⟨rfl, ?_⟩
    intro x hx
    rcases mem_insertEv.mp hx with h | h
    · exact Or.inr h
    · exact Or.inl h
  · intro l hp i j hij
    by_contra hle
    rcases Nat.lt_or_ge j i with hji | hij2
    · have := (List.pairwise_iff_get.mp hp) j i hji
      rcases this with h1 | ⟨h1, h2⟩ <;> rcases hij with h3 | ⟨h3, h4⟩
      · exact absurd (lt_trans h1 h3) (lt_irrefl _)
      · exact absurd h1 (h3 ▸ lt_irrefl _)
      · exact absurd h3 (h1 ▸ lt_irrefl _)
      · exact absurd (Nat.lt_trans h2 h4) (Nat.lt_irrefl _)
    · have : i = j := Fin.le_antisymm hij2 (le_of_not_lt hle)
      subst this
      rcases hij with h1 | ⟨_, h2⟩
      · exact lt_irrefl _ h1
      · exact Nat.lt_irrefl _ h2
  · intro rnd horizon st e rest he hq hlt
    unfold step1
    rw [he, hq]
    simp [not_le.mpr hlt]

/-- Witness for C4: the sortedness invariant on the scenario run, the
ordering fact on a two-event queue tied at time 0, and the pop rule at the
scenario's first step. -/
theorem claim_C4_witness :
    ((stateAt rndZ 100 scenarioInit 2).queue).Pairwise evLt ∧
      (⟨0, by norm_num⟩ : Fin ([⟨0, 0, 1, Proc.done⟩,
        ⟨0, 1, 2, Proc.done⟩] : List Event).length) <
        (⟨1, by norm_num⟩ : Fin ([⟨0, 0, 1, Proc.done⟩,
          ⟨0, 1, 2, Proc.done⟩] : List Event).length) ∧
      step1 rndZ 100 scenarioInit =
        execProc rndZ
          { scenarioInit with
              clock := 0
              queue := [⟨0, 1, 2, scnSecond⟩] } 1 scnFirst := by
  refine ⟨claim_C4_stable_tiebreak.1 rndZ 100 scenarioInit (by decide) 2, ?_, ?_⟩
  · exact claim_C4_stable_tiebreak.2.2.1 _ (by decide) _ _ (Or.inr ⟨rfl, by decide⟩)
  · exact claim_C4_stable_tiebreak.2.2.2 rndZ 100 scenarioInit ⟨0, 0, 1, scnFirst⟩
      [⟨0, 1, 2, scnSecond⟩] rfl rfl (by norm_num)


/-- Claim C2: pool admission is FIFO.  An acquire with occupancy below
capacity admits immediately (occupancy incremented, wait list untouched); an
acquire on a full pool appends the caller to the tail of the wait list and
suspends it; a release on a pool with a non-empty wait list admits exactly
the head, scheduling its resumption at the current clock (zero-duration
handoff); along any run every pool's wait list evolves only by FIFO
discipline (head removals and tail insertions); and under that discipline a
process sitting ahead of another in the wait list is admitted no later: once
the later one has left the list, so has the earlier one. -/
theorem claim_C2_fifo_admission :
    (∀ (rnd : Rnd) (st : EngineState) (pid : ℕ) (r : PoolId) (k : Proc),
      (st.pools r).occupancy < (st.pools r).capacity →
      execProc rnd st pid (.acquire r k) =
        execProc rnd
          (setPool st r { st.pools r with occupancy := (st.pools r).occupancy + 1 }) pid k) ∧
    (∀ (rnd : Rnd) (st : EngineState) (pid : ℕ) (r : PoolId) (k : Proc),
      ¬ (st.pools r).occupancy < (st.pools r).capacity →
      execProc rnd st pid (.acquire r k) =
        setPool st r { st.pools r with waiting := (st.pools r).waiting ++ [(pid, k)] }) ∧
    (∀ (rnd : Rnd) (st : EngineState) (pid : ℕ) (r : PoolId) (k : Proc)
      (q : ℕ) (qk : Proc) (rest : List (ℕ × Proc)),
      (st.pools r).waiting = (q, qk) :: rest →
      execProc rnd st pid (.release r k) =
        execProc rnd
          (pushEvent
            (setPool st r
              { st.pools r with occupancy := (st.pools r).occupancy - 1 + 1, waiting := rest })
            st.clock q qk) pid k) ∧
    (∀ (rnd : Rnd) (horizon : ℚ) (init : EngineState) (r : PoolId) (n : ℕ),
      Reach (waitingPids init r) (waitingPids (stateAt rnd horizon init n) r)) ∧
    (∀ (ops : List QOp) (l u v w : List ℕ) (a b : ℕ), l = u ++ a :: v ++ b :: w →
      a ∉ u → a ∉ v → a ∉ w → a ≠ b → a ∉ pushedElems ops →
      b ∉ evolve ops l → a ∉ evolve ops l) := by
  refine ⟨?_, ?_, ?_, ?_, ?_⟩
  · intro rnd st pid r k h
    simp only [execProc]
    rw [if_pos h]
  · intro rnd st pid r k h
    simp only [execProc]
    rw [if_neg h]
  · intro rnd st pid r k q qk rest h
    simp only [execProc, h]
  · intro rnd horizon init r n
    exact stateAt_reach rnd horizon init r n
  · intro ops l u v w a b h1 h2 h3 h4 h5 h6 h7
    exact fifo_evolve ops l u v w h1 h2 h3 h4 h5 h6 h7

/-- Witness for C2: each FIFO fact instantiated concretely — immediate
admission on the free scenario pool, suspension and head-admission on the
fully occupied pool, and the FIFO consequence on the two-element wait list
[1, 2] drained by two head removals. -/
theorem claim_C2_witness :
    (execProc rndZ scenarioInit 1 (.acquire .fastDoctor .done) =
      execProc rndZ
        (setPool scenarioInit .fastDoctor
          { scenarioInit.pools .fastDoctor with
              occupancy := (scenarioInit.pools .fastDoctor).occupancy + 1 }) 1 .done) ∧
    (execProc rndZ busyInit 3 (.acquire .fastDoctor .done) =
      setPool busyInit .fastDoctor
        { busyInit.pools .fastDoctor with
            waiting := (busyInit.pools .fastDoctor).waiting ++ [(3, .done)] }) ∧
    (execProc rndZ busyInit 3 (.release .fastDoctor .done) =
      execProc rndZ
        (pushEvent
          (setPool busyInit .fastDoctor
            { busyInit.pools .fastDoctor with
                occupancy := (busyInit.pools .fastDoctor).occupancy - 1 + 1
                waiting := [] })
          busyInit.clock 2 Proc.done) 3 .done) ∧
    Reach (waitingPids scenarioInit .fastDoctor)
      (waitingPids (stateAt rndZ 100 scenarioInit 3) .fastDoctor) ∧
    1 ∉ evolve [QOp.pop, QOp.pop] [1, 2] := by
  refine ⟨?_, ?_, ?_, ?_, ?_⟩
  · exact claim_C2_fifo_admission.1 rndZ scenarioInit 1 .fastDoctor .done (by decide)
  · exact claim_C2_fifo_admission.2.1 rndZ busyInit 3 .fastDoctor .done (by decide)
  · exact claim_C2_fifo_admission.2.2.1 rndZ busyInit 3 .fastDoctor .done 2 .done [] rfl
  · exact claim_C2_fifo_admission.2.2.2.1 rndZ 100 scenarioInit .fastDoctor 3
  · exact claim_C2_fifo_admission.2.2.2.2 [QOp.pop, QOp.pop] [1, 2] [] [] [] 1 2 rfl
      (by decide) (by decide) (by decide) (by decide) (by decide) (by decide)


/-- Claim C5: determinism — running the orchestrator on equal
configurations with equal random streams (the model of an identical seed)
yields identical wait-time lists and identical metrics snapshot series. -/
theorem claim_C5_determinism :
    ∀ (cfg1 cfg2 : Config) (rnd1 rnd2 : Rnd), cfg1 = cfg2 → rnd1 = rnd2 →
      resultWaitTimes (runMain cfg1 rnd1) = resultWaitTimes (runMain cfg2 rnd2) ∧
      resultMetrics (runMain cfg1 rnd1) = resultMetrics (runMain cfg2 rnd2) := by
  intro cfg1 cfg2 rnd1 rnd2 h1 h2
  subst h1
  subst h2
  exact ⟨rfl, rfl⟩

/-- Witness for C5: two runs on the three-patient configuration with the
constant streams coincide on both result containers. -/
theorem claim_C5_witness :
    resultWaitTimes (runMain cfgThree rnd0) = resultWaitTimes (runMain cfgThree rnd0) ∧
      resultMetrics (runMain cfgThree rnd0) = resultMetrics (runMain cfgThree rnd0) :=
  claim_C5_determinism cfgThree cfgThree rnd0 rnd0 rfl rfl

/-- Claim C6: the translated `patient` process realises exactly the §4.4
state machine: for every draw stream its step sequence equals the spec-side
sequence (track chosen once by the first uniform draw against 0.3,
fast path = consult, probability-0.3 lab/lab-wait/review, unconditional
medication; main path = consult, probability-0.7 lab/lab-wait/review, then
exactly one of admit against a bed at probability 0.5 or medication); on the
terminal `record` step the engine appends completion time minus arrival
time to the shared wait-time list, and a spawn stamps the child's arrival
time with the current clock. -/
theorem claim_C6_patient_state_machine :
    (∀ f : ℕ → ℚ, trace patientProc f 0 = specPatientSteps f) ∧
    (∀ (rnd : Rnd) (st : EngineState) (pid : ℕ) (k : Proc),
      execProc rnd st pid (.record k) =
        execProc rnd
          { st with waitTimes := st.waitTimes ++ [st.clock - st.starts pid] } pid k) ∧
    (∀ (rnd : Rnd) (st : EngineState) (pid : ℕ) (child k : Proc),
      execProc rnd st pid (.spawn child k) =
        execProc rnd
          (pushEvent
            { st with nextPid := st.nextPid + 1,
                      starts := Function.update st.starts st.nextPid st.clock }
            st.clock st.nextPid child) pid k) := by
  refine ⟨?_, fun rnd st pid k => rfl, fun rnd st pid child k => rfl⟩
  intro f
  by_cases h0 : f 0 < 3/10
  · by_cases h2 : f 2 < 3/10 <;>
      simp [trace, patientProc, fastPath, fastLabSeq, fastMedication, actP, duration,
        actParams, specPatientSteps, specActSteps, h0, h2]
  · by_cases h2 : f 2 < 7/10 <;>
      · simp [trace, patientProc, edPath, edLabSeq, edFinal, actP, duration, actParams,
          specPatientSteps, specActSteps, h0, h2]
        split_ifs <;> simp [trace, actP, duration, actParams]

/-- Claim C7: the timed-activity table of `Hospital` is exactly
consult(20,5,5), medication(15,3,5), review(10,3,3), admit(30,5,5),
fast-lab(6,3,1), fast-lab-wait(25,5,10), main-lab(10,4,3),
main-lab-wait(40,10,15); every duration is `max(floor, sample)` for the
normal sample drawn with the activity's mean and standard deviation, hence
at least the floor. -/
theorem claim_C7_duration_table :
    (actParams .consult = ⟨20, 5, 5⟩ ∧ actParams .medication = ⟨15, 3, 5⟩ ∧
      actParams .review = ⟨10, 3, 3⟩ ∧ actParams .admitted = ⟨30, 5, 5⟩ ∧
      actParams .fastLab = ⟨6, 3, 1⟩ ∧ actParams .fastLabWait = ⟨25, 5, 10⟩ ∧
      actParams .edLab = ⟨10, 4, 3⟩ ∧ actParams .edLabWait = ⟨40, 10, 15⟩) ∧
    (∀ (a : Activity) (s : ℚ), duration a s = max (actParams a).floorD s) ∧
    (∀ (a : Activity) (s : ℚ), (actParams a).floorD ≤ duration a s) ∧
    (∀ (a : Activity) (k : Proc),
      actP a k = .rand (.normalNp (actParams a).mean (actParams a).std)
        (fun s => .delay (duration a s) k)) :=
  ⟨⟨rfl, rfl, rfl, rfl, rfl, rfl, rfl, rfl⟩, fun a s => rfl,
    fun a s => le_max_left _ _, fun a k => rfl⟩


set_option maxRecDepth 100000 in
/-- Counterexample to C8 as stated: with every `np.random` sample equal to
5, the claim puts the first patient's arrival at time 5 (the sampled
inter-arrival delay), but the generator spawns the first patient before
sampling any delay: its arrival time both in the generator denotation and in
the full three-patient run is 0, and 0 ≠ 5. -/
theorem claim_C8_counterexample :
    genArrivalsAux 0 [(5 : ℚ)] = [0] ∧
      startOfPid (runMain cfgThree rnd0) 2 = 0 ∧
      rnd0.np 0 = 5 ∧ (0 : ℚ) ≠ 5 := by
  refine ⟨rfl, ?_, rfl, by norm_num⟩
  with_unfolding_all rfl

set_option maxRecDepth 100000 in
/-- Claim C8 (amended): the generator spawns each patient at the current
instant and only then samples the exponential inter-arrival delay (mean =
arrival-rate parameter) and waits; hence patient i (0-based) arrives at the
sum of the first i sampled delays — in particular the first patient arrives
at the generator's start time, not after a sampled delay.  Corroborated on
the engine: in the three-patient run with constant delay 5 the arrivals are
0, 5 and 10. -/
theorem claim_C8_amended_arrivals :
    (∀ (rate : ℚ) (n : ℕ),
      genProc rate (n + 1) =
        .spawn patientProc (.rand (.expNp rate) (fun d => .delay d (genProc rate n)))) ∧
    (∀ (t : ℚ) (ds : List ℚ), (genArrivalsAux t ds).length = ds.length) ∧
    (∀ (t : ℚ) (ds : List ℚ), (genArrivalsAux t ds).getD 0 t = t) ∧
    (∀ (t : ℚ) (ds : List ℚ) (i : ℕ), i < ds.length →
      (genArrivalsAux t ds).getD i 0 = t + (ds.take i).sum) ∧
    (startOfPid (runMain cfgThree rnd0) 2 = 0 ∧
      startOfPid (runMain cfgThree rnd0) 3 = 5 ∧
      startOfPid (runMain cfgThree rnd0) 4 = 10) := by
  refine ⟨fun rate n => rfl, ?_, ?_, ?_, ?_, ?_, ?_⟩
  · intro t ds
    induction ds generalizing t with
    | nil => rfl
    | cons d ds ih => simp [genArrivalsAux, ih]
  · intro t ds
    cases ds with
    | nil => rfl
    | cons d ds => rfl
  · intro t ds
    induction ds generalizing t with
    | nil => intro i h; exact absurd h (by simp)
    | cons d ds ih =>
      intro i h
      cases i with
      | zero => simp [genArrivalsAux]
      | succ i =>
        have h2 : i < ds.length := by simpa using h
        have h3 : (genArrivalsAux t (d :: ds)).getD (i + 1) 0 =
            (genArrivalsAux (t + d) ds).getD i 0 := rfl
        rw [h3, ih (t + d) i h2]
        simp [List.sum_cons]
        ring
  · with_unfolding_all rfl
  · with_unfolding_all rfl
  · with_unfolding_all rfl

/-- Witness for C8 (amended): the arrival formula evaluated on three
constant delays of 5 — the third patient arrives at 0 + (5 + 5). -/
theorem claim_C8_witness :
    (genArrivalsAux 0 [(5 : ℚ), 5, 5]).getD 2 0 = 0 + ([(5 : ℚ), 5, 5].take 2).sum :=
  claim_C8_amended_arrivals.2.2.2.1 0 [(5 : ℚ), 5, 5] 2 (by norm_num)

/-- Counterexample to C9 as stated: the zero-patient configuration has a
non-positive patient count, yet the orchestrator raises no
`InvalidConfiguration` error — the run completes normally. -/
theorem claim_C9_counterexample :
    cfgZeroPatients.nPatients ≤ 0 ∧ (runMain cfgZeroPatients rnd0).isOk = true := by
  exact ⟨by decide, by with_unfolding_all rfl⟩

/-- Claim C9 (amended): a configuration with any non-positive resource
capacity fails fast with `InvalidConfiguration` before any scheduling
begins, and every configuration with positive capacities runs without such
an error; but a non-positive patient count is not rejected — the generator
merely spawns no patients (`range(n)` is empty). -/
theorem claim_C9_amended_validation :
    (∀ (cfg : Config) (rnd : Rnd), ¬ capsPositive cfg →
      runMain cfg rnd = .error .invalidConfiguration) ∧
    (∀ (cfg : Config) (rnd : Rnd), capsPositive cfg → (runMain cfg rnd).isOk = true) ∧
    (∀ (rate : ℚ) (z : ℤ), z ≤ 0 → genProc rate z.toNat = .done) := by
  refine ⟨?_, ?_, ?_⟩
  · intro cfg rnd h
    simp [runMain, h]
  · intro cfg rnd h
    simp [runMain, h, Except.isOk, Except.toBool]
  · intro rate z hz
    rw [Int.toNat_of_nonpos hz]
    rfl

/-- Witness for C9 (amended): the bed-less configuration is rejected, the
three-patient configuration is accepted, and a zero patient count yields
the empty generator. -/
theorem claim_C9_witness :
    runMain cfgNoBeds rnd0 = .error .invalidConfiguration ∧
      (runMain cfgThree rnd0).isOk = true ∧
      genProc 10 (Int.toNat 0) = .done :=
  ⟨claim_C9_amended_validation.1 cfgNoBeds rnd0 (by decide),
    claim_C9_amended_validation.2.1 cfgThree rnd0 (by decide),
    claim_C9_amended_validation.2.2 10 0 (by decide)⟩

/-- Claim C10: track isolation — a fast-track patient (first uniform draw
below 0.3) only ever acquires or releases the fast-track doctor and
fast-track nurse pools over its whole step sequence, and a main-department
patient only the main doctor, main nurse and bed pools. -/
theorem claim_C10_track_isolation :
    (∀ f : ℕ → ℚ, f 0 < 3/10 →
      ∀ r ∈ touchedPools (trace patientProc f 0),
        r = PoolId.fastDoctor ∨ r = PoolId.fastNurse) ∧
    (∀ f : ℕ → ℚ, ¬ f 0 < 3/10 →
      ∀ r ∈ touchedPools (trace patientProc f 0),
        r = PoolId.edDoctor ∨ r = PoolId.edNurse ∨ r = PoolId.beds) := by
  constructor
  · intro f h0
    by_cases h2 : f 2 < 3/10 <;>
      · simp [trace, patientProc, fastPath, fastLabSeq, fastMedication, actP, duration,
          actParams, touchedPools, touchedPool, h0, h2]
  · intro f h0
    by_cases h2 : f 2 < 7/10 <;>
      · simp [trace, patientProc, edPath, edLabSeq, edFinal, actP, duration, actParams,
          touchedPools, touchedPool, h0, h2]
        split_ifs <;>
          simp [trace, actP, duration, actParams, touchedPools, touchedPool]

/-- Witness for C10: the all-zero stream forces the fast track (0 < 0.3)
and the constant-1/2 stream the main track; both isolation statements hold
on those concrete patients. -/
theorem claim_C10_witness :
    (∀ r ∈ touchedPools (trace patientProc (fun _ => 0) 0),
      r = PoolId.fastDoctor ∨ r = PoolId.fastNurse) ∧
    (∀ r ∈ touchedPools (trace patientProc (fun _ => (1/2 : ℚ)) 0),
      r = PoolId.edDoctor ∨ r = PoolId.edNurse ∨ r = PoolId.beds) :=
  ⟨claim_C10_track_isolation.1 (fun _ => 0) (by norm_num),
    claim_C10_track_isolation.2 (fun _ => (1/2 : ℚ)) (by norm_num)⟩

end EDSim
